import Mathlib

/-!
Verification of the utility layer of the cheerio repository (`src/utils.ts`).

The file embeds the six utility operations shallowly in Lean:

* `isHtml`        — the markup-sniffing heuristic (strings as `List Char`,
                    `indexOf` modelled with JS's `-1` convention on `Int`);
* `camelCase`     — the separator-to-camel conversion, following the scan of
                    the global regex `[_.-](\w|$)`;
* `cssCase`       — the camel-to-hyphenated-lowercase conversion
                    (`[A-Z]` global replace with `-$&`, then lowercasing);
* `domEach`       — snapshot-length iteration, modelled over an explicit
                    store of arrays addressed by references so that the
                    identity of the returned sequence is expressible;
* `isCheerio`     — the duck-typed instance probe, over a small model of
                    JS values where property access on a nullish value
                    faults (`Except`);
* `cloneDom`      — deep cloning, modelled over an arena heap of node
                    records and array cells addressed by stable indices,
                    so that freshness, aliasing and frame conditions are
                    expressible.

Character classes follow the ASCII ranges the source's regexes use.
Case mapping (`toUpper`/`toLower`) is modelled on the ASCII range, which is
the range the source exercises (`\w` and `[A-Z]` characters).
-/

namespace CheerioUtils

/-! ### Character helpers (the ASCII classes used by the source's regexes) -/

/-- ASCII lower-case letter, the class `[a-z]`. -/
def isAsciiLower (c : Char) : Bool :=
  decide ('a'.toNat ≤ c.toNat) && decide (c.toNat ≤ 'z'.toNat)

/-- ASCII upper-case letter, the class `[A-Z]`. -/
def isAsciiUpper (c : Char) : Bool :=
  decide ('A'.toNat ≤ c.toNat) && decide (c.toNat ≤ 'Z'.toNat)

/-- ASCII digit, the class `[0-9]`. -/
def isAsciiDigit (c : Char) : Bool :=
  decide ('0'.toNat ≤ c.toNat) && decide (c.toNat ≤ '9'.toNat)

/-- Word character of the regex engine, the class `\w` = `[A-Za-z0-9_]`. -/
def isWordChar (c : Char) : Bool :=
  isAsciiLower c || isAsciiUpper c || isAsciiDigit c || c == '_'

/-- Separator characters of `camelCase`, the class `[_.-]`. -/
def isSepChar (c : Char) : Bool := c == '_' || c == '.' || c == '-'

/-! ### `isHtml` (src/utils.ts, the markup sniffer) -/

/-- JS `String.prototype.indexOf` for a single character: the index of the
first occurrence, `-1` when there is none. -/
def jsIndexOf (s : List Char) (c : Char) : Int :=
  match s.findIdx? (fun d => d == c) with
  | some i => (i : Int)
  | none => -1

/-- Embedding of `isHtml` from `src/utils.ts`:
`tagStart = str.indexOf('<')`; reject when `tagStart < 0` or
`tagStart > str.length - 3`; then accept iff the character code right after
`<` is in `[97,122]` (`a`–`z`), `[65,90]` (`A`–`Z`) or is `33` (`!`), and a
`>` occurs at or after `tagStart + 2` (`str.includes('>', tagStart + 2)`). -/
def isHtml (s : List Char) : Bool :=
  let tagStart := jsIndexOf s '<'
  if tagStart < 0 || tagStart > (s.length : Int) - 3 then false
  else
    let tagChar := (s.getD (tagStart + 1).toNat ' ').toNat
    ((decide (97 ≤ tagChar) && decide (tagChar ≤ 122)) ||
      (decide (65 ≤ tagChar) && decide (tagChar ≤ 90)) ||
      tagChar == 33) &&
    (s.drop (tagStart + 2).toNat).contains '>'

/-- ASCII letter or `!`, the acceptance class the spec describes for the
character immediately following the `<`. -/
def letterOrBang (c : Char) : Bool := isAsciiLower c || isAsciiUpper c || c == '!'

/-- The markup-sniffing predicate written from the specification's words:
the first `<` exists and leaves at least 2 characters after it, the next
character is an ASCII letter or `!`, and a `>` occurs anywhere from two
positions past the `<` onward. -/
def isHtmlSpec (s : List Char) : Bool :=
  match s.findIdx? (fun d => d == '<') with
  | none => false
  | some i =>
      decide (i + 3 ≤ s.length) &&
      letterOrBang (s.getD (i + 1) ' ') &&
      (s.drop (i + 2)).contains '>'

/-! ### `camelCase` (src/utils.ts) -/

/-- Embedding of `camelCase` from `src/utils.ts`:
`str.replace(/[_.-](\w|$)/g, (_, x) => x.toUpperCase())`, as the left-to-right
scan the regex engine performs.  A separator followed by a word character is
replaced (both characters consumed) by the upper-cased word character; a
separator that ends the string is dropped; at any other position the scan
emits the character and moves on by one. -/
def camelCase : List Char → List Char
  | [] => []
  | c :: rest =>
    if isSepChar c then
      match rest with
      | [] => []
      | d :: rest2 =>
        if isWordChar d then Char.toUpper d :: camelCase rest2
        else c :: camelCase (d :: rest2)
    else c :: camelCase rest

/-- The transformation the claim describes word for word: every separator
followed by *any* character is replaced by the upper-cased following
character, and a trailing separator is dropped. -/
def camelCaseClaimed : List Char → List Char
  | [] => []
  | c :: rest =>
    if isSepChar c then
      match rest with
      | [] => []
      | d :: rest2 => Char.toUpper d :: camelCaseClaimed rest2
    else c :: camelCaseClaimed rest

/-! ### `cssCase` (src/utils.ts) -/

/-- Embedding of `cssCase` from `src/utils.ts`:
`str.replace(/[A-Z]/g, '-$&').toLowerCase()` — every ASCII upper-case letter
is replaced by a hyphen followed by itself, then the whole result is
lower-cased. -/
def cssCase (s : List Char) : List Char :=
  ((s.map (fun c => if isAsciiUpper c then ['-', c] else [c])).flatten).map Char.toLower

/-- Insertion of a hyphen immediately before every upper-case letter,
written from the specification's words. -/
def insertHyphens : List Char → List Char
  | [] => []
  | c :: rest => (if isAsciiUpper c then ['-', c] else [c]) ++ insertHyphens rest

/-- The transformation the claim describes: insert a hyphen before every
upper-case letter, then lower-case the entire result. -/
def cssCaseSpec (s : List Char) : List Char := (insertHyphens s).map Char.toLower

/-! ### `domEach` (src/utils.ts) -/

/-- Embedding of `domEach` from `src/utils.ts`.  Array-like sequences live
in an explicit store (`Nat`-addressed references to lists), so that the
identity of the returned sequence is expressible.  The callback receives the
whole mutable state (store plus arbitrary closure state `τ`), the element
currently stored at the visited index, and the index.  As in the source, the
length is captured once at entry (`const len = array.length`), the loop
visits indices `0..len-1` in order, and the function returns the very
reference it was given. -/
def domEach {T τ : Type} [Inhabited T] (store : Nat → List T) (ref : Nat)
    (fn : ((Nat → List T) × τ) → T → Nat → ((Nat → List T) × τ)) (extra : τ) :
    ((Nat → List T) × τ) × Nat :=
  let len := (store ref).length
  ((List.range len).foldl (fun st i => fn st ((st.1 ref).getD i default) i) (store, extra), ref)

/-- Instrumented callback: applies an arbitrary store action `g` and logs
the (element, index) pair of every invocation. -/
def logWrap {T : Type} (g : (Nat → List T) → T → Nat → (Nat → List T)) :
    ((Nat → List T) × List (T × Nat)) → T → Nat → ((Nat → List T) × List (T × Nat)) :=
  fun st e i => (g st.1 e i, st.2 ++ [(e, i)])

/-! ### `isCheerio` (src/utils.ts) -/

/-- Model of a JS value, as far as the property probe needs: the two nullish
values, primitives (boolean, number, string, symbol), and objects carrying a
list of own properties. -/
inductive JSValue where
  | vNull : JSValue
  | vUndefined : JSValue
  | vBool : Bool → JSValue
  | vNum : Int → JSValue
  | vStr : String → JSValue
  | vSym : Nat → JSValue
  | vObj : List (String × JSValue) → JSValue

/-- Loose-equality test against `null`: `x != null` is false exactly on
`null` and `undefined`. -/
def isNullish : JSValue → Bool
  | .vNull => true
  | .vUndefined => true
  | _ => false

/-- JS property access: faults (TypeError) on `null`/`undefined`; on an
object yields the property's value, or `undefined` when the property is
absent; on any other value (a boxed primitive) yields `undefined`. -/
def getProp : JSValue → String → Except Unit JSValue
  | .vNull, _ => .error ()
  | .vUndefined, _ => .error ()
  | .vObj props, key => .ok ((props.lookup key).getD .vUndefined)
  | _, _ => .ok .vUndefined

/-- Embedding of `isCheerio` from `src/utils.ts`:
`maybeCheerio.cheerio != null`, where the property dereference faults on a
nullish argument. -/
def isCheerio (v : JSValue) : Except Unit Bool :=
  match getProp v "cheerio" with
  | .error e => .error e
  | .ok m => .ok (!(isNullish m))

/-- The capability probe the spec describes: the value exposes the `cheerio`
marker property with a non-nullish value. -/
def exposesMarker : JSValue → Bool
  | .vObj props => !(isNullish ((props.lookup "cheerio").getD .vUndefined))
  | _ => false

/-- Fault indicator: did the computation raise? -/
def isFault {α : Type} : Except Unit α → Bool
  | .error _ => true
  | .ok _ => false

/-! ### `cloneDom` (src/utils.ts): arena model of the DOM heap -/

/-- Node kind: the synthetic `Document` root against any other node kind. -/
inductive NKind where
  | document : NKind
  | other : NKind
deriving DecidableEq

/-- A node record of the arena: its kind, its kind-specific payload
(abstracting tag name, text content, attributes), its parent reference and a
reference to the array cell holding its children. -/
structure NodeRec where
  kind : NKind
  payload : String
  parent : Option Nat
  childrenRef : Nat
deriving DecidableEq

instance : Inhabited NodeRec := ⟨⟨NKind.other, "", none, 0⟩⟩

/-- The arena heap: node records and array cells, addressed by their index;
allocation appends, mutation writes in place. -/
structure Heap where
  nodes : List NodeRec
  arrays : List (List Nat)
deriving DecidableEq

def Heap.allocArray (h : Heap) (l : List Nat) : Heap × Nat :=
  ({ h with arrays := h.arrays ++ [l] }, h.arrays.length)

def Heap.allocNode (h : Heap) (r : NodeRec) : Heap × Nat :=
  ({ h with nodes := h.nodes ++ [r] }, h.nodes.length)

/-- Write the parent field of the node at `id` (a no-op out of bounds). -/
def Heap.setParent (h : Heap) (id : Nat) (p : Option Nat) : Heap :=
  { h with nodes := h.nodes.set id { h.nodes.getD id default with parent := p } }

/-- Overwrite a whole node record (used to express mutation independence). -/
def Heap.setNode (h : Heap) (id : Nat) (r : NodeRec) : Heap :=
  { h with nodes := h.nodes.set id r }

/-- Overwrite an array cell (used to express array aliasing). -/
def Heap.setArray (h : Heap) (k : Nat) (l : List Nat) : Heap :=
  { h with arrays := h.arrays.set k l }

/-- Allocation of one clone given its already-cloned children: a fresh array
cell holding the cloned children, a fresh node copying the source's kind and
payload (parent starts out null), then each cloned child's parent is set to
the fresh node.  This models one step of the recursive-copy primitive of the
consumed `domhandler` contract (`cloneNode(el, true)`), as §4.5 and §6 of
the spec describe it: duplicate the node's payload and (recursively) its
descendants, sharing no mutable state with the source. -/
def cloneStep (h : Heap) (k : NKind) (pl : String) (ckids : List Nat) : Heap × Nat :=
  let a := h.allocArray ckids
  let n := a.1.allocNode ⟨k, pl, none, a.2⟩
  (ckids.foldl (fun hh c => hh.setParent c (some n.2)) n.1, n.2)

/-- The record of a source node (`el`'s payload, as `cloneNode` reads it). -/
def srcOf (h : Heap) (id : Nat) : NodeRec := h.nodes.getD id default

/-- The children ids of a source node. -/
def kidsOf (h : Heap) (id : Nat) : List Nat := h.arrays.getD (srcOf h id).childrenRef []

/-- Deep cloning of a list of nodes, left to right, threading the heap.
`fuel` bounds the recursion depth into children: the recursive copy of the
external library terminates on the acyclic trees it is given, and the fuel
makes the recursion structural here; every theorem below holds for every
fuel. -/
def cloneMany (fuel : Nat) (h : Heap) (ids : List Nat) : Heap × List Nat :=
  match ids with
  | [] => (h, [])
  | id :: rest =>
    let rk := match fuel with
      | 0 => (h, ([] : List Nat))
      | f + 1 => cloneMany f h (kidsOf h id)
    let c := cloneStep rk.1 (srcOf h id).kind (srcOf h id).payload rk.2
    let rr := cloneMany fuel c.1 rest
    (rr.1, c.2 :: rr.2)
termination_by (fuel, ids.length)

/-- The argument of `cloneDom`, as the dispatch sees it: a JS value that
either carries a `length` property (`'length' in dom` — `lengthVal` is then
its coerced numeric value and `items i` models the indexed access `dom[i]`)
or does not (`self` is then the single node).  Nothing else about the value
is inspected by the function. -/
structure CloneArg where
  lengthVal : Option Nat
  items : Nat → Nat
  self : Nat

/-- The source nodes `cloneDom` clones: the indexed elements
`dom[0..length-1]` when a `length` key is present, else the single node. -/
def CloneArg.toList (a : CloneArg) : List Nat :=
  match a.lengthVal with
  | some n => (List.range n).map a.items
  | none => [a.self]

/-- Embedding of `cloneDom` from `src/utils.ts`: clone the input (mapping
over it when `'length' in dom`, else cloning the single node into a
one-element array), materialise the JS array holding the top-level clones,
construct a fresh `Document` seeded with *that same array cell*
(`new Document(clone)`), set every top-level clone's parent to the fresh
root (`clone.forEach(node => { node.parent = root })`), and return the
array cell (`return clone`). -/
def cloneDom (fuel : Nat) (h : Heap) (dom : CloneArg) : Heap × Nat :=
  let step :=
    match dom.lengthVal with
    | some n => cloneMany fuel h ((List.range n).map dom.items)
    | none => cloneMany fuel h [dom.self]
  let a := step.1.allocArray step.2
  let r := a.1.allocNode ⟨NKind.document, "", none, a.2⟩
  let h4 := step.2.foldl (fun hh c => hh.setParent c (some r.2)) r.1
  (h4, a.2)

/-- `h'` extends `h`: both stores only grew, and every cell of `h` reads the
same in `h'`. -/
def Ext (h h' : Heap) : Prop :=
  h.nodes.length ≤ h'.nodes.length ∧ h.arrays.length ≤ h'.arrays.length ∧
  (∀ i, i < h.nodes.length → h'.nodes.get? i = h.nodes.get? i) ∧
  (∀ k, k < h.arrays.length → h'.arrays.get? k = h.arrays.get? k)

/-- Separation of the fresh part relative to the baseline sizes `nN`/`nA`:
every fresh node's children array is a fresh cell and every fresh array cell
holds only fresh node ids, so the fresh object graph never reaches into the
old one. -/
def FreshOk (nN nA : Nat) (h' : Heap) : Prop :=
  (∀ j r, nN ≤ j → h'.nodes.get? j = some r → nA ≤ r.childrenRef) ∧
  (∀ k l, nA ≤ k → h'.arrays.get? k = some l → ∀ c ∈ l, nN ≤ c)

/-- Decidable bound on all parent references of a heap: the well-formedness
assumption behind the parent-distinctness part of C2. -/
def parentsBounded (h : Heap) : Bool :=
  h.nodes.all (fun r =>
    match r.parent with
    | none => true
    | some p => decide (p < h.nodes.length))



/-- Invariant of one cloning call starting from heap `h`: the result heap
extends `h` (old cells read unchanged), the returned clone ids are fresh and
valid, and the fresh part is separated from the old one. -/
def CloneInv (h : Heap) (out : Heap × List Nat) : Prop :=
  Ext h out.1 ∧
  (∀ c ∈ out.2, h.nodes.length ≤ c ∧ c < out.1.nodes.length) ∧
  FreshOk h.nodes.length h.arrays.length out.1



/-- Top-level clone correspondence: the clone's record in the result heap
copies the kind and the payload of the source's record in the base heap
(the formalisation of "preserving input order": the i-th returned clone is
a copy of the i-th input node). -/
def TopCorr (hres hbase : Heap) (c id : Nat) : Prop :=
  ∃ rc rs, hres.nodes.get? c = some rc ∧ hbase.nodes.get? id = some rs ∧
    rc.kind = rs.kind ∧ rc.payload = rs.payload



/-- The dispatch test of `cloneDom`: `'length' in dom`. -/
def CloneArg.hasLengthKey (a : CloneArg) : Bool := a.lengthVal.isSome

/-! ### Theorems -/

/-! ### Bridging lemmas for character classes -/

theorem char_toNat_inj {c d : Char} (h : c.toNat = d.toNat) : c = d := by
  have hc := Char.ofNat_toNat c
  have hd := Char.ofNat_toNat d
  rw [← hc, ← hd, h]

theorem beq_toNat_bang (c : Char) : (c.toNat == 33) = (c == '!') := by
  by_cases h : c = '!'
  · subst h; decide
  · have h2 : c.toNat ≠ 33 := by
      intro hc
      exact h (char_toNat_inj (by rw [hc]; rfl))
    simp [h, h2]

theorem letterOrBang_eq (c : Char) :
    ((decide (97 ≤ c.toNat) && decide (c.toNat ≤ 122)) ||
      (decide (65 ≤ c.toNat) && decide (c.toNat ≤ 90)) ||
      c.toNat == 33) = letterOrBang c := by
  unfold letterOrBang isAsciiLower isAsciiUpper
  rw [show 'a'.toNat = 97 from by decide, show 'z'.toNat = 122 from by decide,
    show 'A'.toNat = 65 from by decide, show 'Z'.toNat = 90 from by decide,
    beq_toNat_bang]

/-- C1: for every string, `isHtml` agrees with the specification's
three-step characterisation: first `<` exists with at least 2 characters
after it, the following character is an ASCII letter or `!`, and a `>`
occurs from two positions past the `<` onward; otherwise `false`. -/
theorem isHtml_eq_spec (s : List Char) : isHtml s = isHtmlSpec s := by
  cases hfind : s.findIdx? (fun d => d == '<') with
  | none =>
    have hj : jsIndexOf s '<' = -1 := by unfold jsIndexOf; rw [hfind]
    unfold isHtml isHtmlSpec
    rw [hfind, hj]
    simp
  | some i =>
    have hj : jsIndexOf s '<' = (i : Int) := by unfold jsIndexOf; rw [hfind]
    unfold isHtml isHtmlSpec
    rw [hfind, hj]
    simp only []
    by_cases h : i + 3 ≤ s.length
    · have h0 : ¬ ((i : Int) < 0) := by omega
      have h1 : ¬ ((i : Int) > (s.length : Int) - 3) := by omega
      have e1 : ((i : Int) + 1).toNat = i + 1 := by omega
      have e2 : ((i : Int) + 2).toNat = i + 2 := by omega
      rw [decide_eq_false h0, decide_eq_false h1]
      simp only [Bool.or_self, Bool.false_eq_true, if_false, e1, e2,
        decide_eq_true h, Bool.true_and]
      rw [letterOrBang_eq]
    · have h1 : (i : Int) > (s.length : Int) - 3 := by omega
      rw [decide_eq_true h1]
      simp [h]

/-- C4 counterexample: on `"x- y"` the code leaves the string unchanged
(the regex only fires when a *word* character follows the separator), while
the claimed transformation — uppercase *any* character following a
separator — would delete the hyphen and produce `"x y"`. -/
theorem camelCase_counterexample :
    camelCase "x- y".data = "x- y".data ∧
    camelCaseClaimed "x- y".data = "x y".data ∧
    camelCase "x- y".data ≠ camelCaseClaimed "x- y".data := by decide

/-- C4 amended: `camelCase` replaces a separator followed by a *word*
character (`[A-Za-z0-9_]`) by the upper-cased following character, leaves a
separator followed by any other character unchanged, drops a separator that
ends the string, and satisfies the spec's three examples. -/
theorem camelCase_amended :
    (∀ c d rest, camelCase (c :: d :: rest) =
      if isSepChar c then
        (if isWordChar d then Char.toUpper d :: camelCase rest
         else c :: camelCase (d :: rest))
      else c :: camelCase (d :: rest)) ∧
    (∀ c, camelCase [c] = if isSepChar c then [] else [c]) ∧
    camelCase [] = [] ∧
    camelCase "foo-bar".data = "fooBar".data ∧
    camelCase "foo.bar_baz".data = "fooBarBaz".data ∧
    camelCase "foo-".data = "foo".data := by
  refine ⟨fun c d rest => rfl, fun c => rfl, rfl, by decide, by decide, by decide⟩

/-- C5: `cssCase` equals the specification's description — insert a hyphen
immediately before every upper-case letter, then lower-case the entire
result — and satisfies the spec's two examples. -/
theorem cssCase_eq_spec :
    (∀ s : List Char, cssCase s = cssCaseSpec s) ∧
    cssCase "fooBar".data = "foo-bar".data ∧
    cssCase "FooBar".data = "-foo-bar".data := by
  refine ⟨fun s => ?_, by decide, by decide⟩
  unfold cssCase cssCaseSpec
  congr 1
  induction s with
  | nil => rfl
  | cons c rest ih => simp only [List.map_cons, List.flatten_cons, insertHyphens, ih]

theorem foldl_logWrap_indices {T : Type} [Inhabited T]
    (g : (Nat → List T) → T → Nat → (Nat → List T)) (ref : Nat) :
    ∀ (idxs : List Nat) (st : (Nat → List T) × List (T × Nat)),
      ((idxs.foldl (fun st i => logWrap g st ((st.1 ref).getD i default) i) st).2).map Prod.snd
        = st.2.map Prod.snd ++ idxs := by
  intro idxs
  induction idxs with
  | nil => intro st; simp
  | cons i rest ih =>
    intro st
    rw [List.foldl_cons, ih]
    simp [logWrap]

theorem foldl_pure_log {T : Type} [Inhabited T] (store : Nat → List T) (ref : Nat) :
    ∀ (idxs : List Nat) (l : List (T × Nat)),
      (idxs.foldl (fun st i => logWrap (fun s _ _ => s) st ((st.1 ref).getD i default) i)
          (store, l))
        = (store, l ++ idxs.map (fun i => ((store ref).getD i default, i))) := by
  intro idxs
  induction idxs with
  | nil => intro l; simp
  | cons i rest ih =>
    intro l
    rw [List.foldl_cons]
    have hstep : logWrap (fun s _ _ => s) (store, l) (((store, l).1 ref).getD i default) i
        = (store, l ++ [((store ref).getD i default, i)]) := rfl
    rw [hstep, ih]
    simp

/-- C6: `domEach` returns a value reference-equal to its input sequence (the
second component is the very reference passed in); for *any* callback store
action `g` — which may grow, shrink or replace the sequence — the callback
runs exactly once per index `0..n-1` in ascending order, where `n` is the
length captured once at entry, so elements appended past the snapshotted
length are never visited; and for a callback that leaves the store alone the
elements passed are exactly those stored at the visited indices. -/
theorem domEach_spec {T : Type} [Inhabited T] (store : Nat → List T) (ref : Nat)
    (g : (Nat → List T) → T → Nat → (Nat → List T)) :
    (domEach store ref (logWrap g) []).2 = ref ∧
    ((domEach store ref (logWrap g) []).1.2).map Prod.snd
      = List.range (store ref).length ∧
    (domEach store ref (logWrap (fun s _ _ => s)) []).1.2
      = (List.range (store ref).length).map (fun i => ((store ref).getD i default, i)) := by
  refine ⟨rfl, ?_, ?_⟩
  · unfold domEach
    simp only []
    rw [foldl_logWrap_indices]
    simp
  · unfold domEach
    simp only []
    rw [foldl_pure_log]
    simp

/-- C7: `isCheerio` faults on the two nullish inputs and otherwise returns
exactly the marker probe — `true` iff the value exposes a non-nullish
`cheerio` property, hence `false` for an object lacking the marker. -/
theorem isCheerio_spec (v : JSValue) :
    isCheerio v = if isNullish v then Except.error () else Except.ok (exposesMarker v) := by
  cases v <;> rfl

/-- C8: `isCheerio` faults exactly on nullish inputs; every primitive input
(number, string, boolean, symbol) is handled without fault and yields
`false`, since a boxed primitive exposes no non-nullish `cheerio` marker. -/
theorem isCheerio_total_on_nonNullish (v : JSValue) (n : Int) (s : String) (b : Bool) (k : Nat) :
    isFault (isCheerio v) = isNullish v ∧
    isCheerio (.vNum n) = .ok false ∧
    isCheerio (.vStr s) = .ok false ∧
    isCheerio (.vBool b) = .ok false ∧
    isCheerio (.vSym k) = .ok false := by
  refine ⟨?_, rfl, rfl, rfl, rfl⟩
  cases v <;> rfl

/-! ### Heap lemmas -/

theorem get?_some_lt {α : Type} {l : List α} {i : Nat} {x : α}
    (h : l.get? i = some x) : i < l.length := by
  by_contra hc
  rw [List.get?_eq_none.mpr (by omega)] at h
  exact Option.noConfusion h

theorem ext_refl (h : Heap) : Ext h h :=
  ⟨le_refl _, le_refl _, fun _ _ => rfl, fun _ _ => rfl⟩

theorem freshOk_self (h : Heap) : FreshOk h.nodes.length h.arrays.length h := by
  constructor
  · intro j r hj hget
    exact absurd (get?_some_lt hget) (by omega)
  · intro k l hk hget
    exact absurd (get?_some_lt hget) (by omega)

/-- Writing parents over a list of ids: lengths and arrays unchanged; node
records outside the list unchanged; records inside the list get the new
parent and keep every other field. -/
theorem foldl_setParent_spec (p : Option Nat) :
    ∀ (cs : List Nat) (hh : Heap),
      ((cs.foldl (fun x c => x.setParent c p) hh).nodes.length = hh.nodes.length) ∧
      ((cs.foldl (fun x c => x.setParent c p) hh).arrays = hh.arrays) ∧
      (∀ i, i ∉ cs → (cs.foldl (fun x c => x.setParent c p) hh).nodes.get? i = hh.nodes.get? i) ∧
      (∀ i r, i ∈ cs → hh.nodes.get? i = some r →
        (cs.foldl (fun x c => x.setParent c p) hh).nodes.get? i = some { r with parent := p }) := by
  intro cs
  induction cs with
  | nil =>
    intro hh
    exact ⟨rfl, rfl, fun _ _ => rfl, fun i r hmem => absurd hmem (List.not_mem_nil i)⟩
  | cons c cs ih =>
    intro hh
    have hlen : (hh.setParent c p).nodes.length = hh.nodes.length := by
      simp [Heap.setParent]
    have harr : (hh.setParent c p).arrays = hh.arrays := rfl
    obtain ⟨ih1, ih2, ih3, ih4⟩ := ih (hh.setParent c p)
    refine ⟨?_, ?_, ?_, ?_⟩
    · rw [List.foldl_cons, ih1, hlen]
    · rw [List.foldl_cons, ih2, harr]
    · intro i hi
      have hic : i ≠ c := fun he => hi (he ▸ List.mem_cons_self c cs)
      have hics : i ∉ cs := fun hm => hi (List.mem_cons_of_mem c hm)
      rw [List.foldl_cons, ih3 i hics, Heap.setParent]
      exact List.get?_set_ne _ _ (fun he => hic he.symm)
    · intro i r hmem hget
      rw [List.foldl_cons]
      by_cases hic : i = c
      · subst hic
        have hset : (hh.setParent i p).nodes.get? i = some { r with parent := p } := by
          rw [Heap.setParent]
          have hd : hh.nodes.getD i default = r := by
            rw [List.getD_eq_get?, hget]; rfl
          rw [hd]
          exact List.get?_set_eq_of_lt _ (get?_some_lt hget)
        by_cases hmem2 : i ∈ cs
        · exact ih4 i { r with parent := p } hmem2 hset
        · rw [ih3 i hmem2]; exact hset
      · have hm : i ∈ cs := by
          rcases List.mem_cons.mp hmem with he | hm
          · exact absurd he hic
          · exact hm
        have hget2 : (hh.setParent c p).nodes.get? i = some r := by
          rw [Heap.setParent, List.get?_set_ne _ _ (fun he => hic he.symm)]
          exact hget
        exact ih4 i r hm hget2

/-- Characterisation of `cloneStep` when the cloned children are valid ids:
the fresh node id, the grown stores, preservation of untouched records, the
parent rewrite on the children, and the fresh node's record. -/
theorem cloneStep_spec (h : Heap) (k : NKind) (pl : String) (ckids : List Nat)
    (hck : ∀ c ∈ ckids, c < h.nodes.length) :
    (cloneStep h k pl ckids).2 = h.nodes.length ∧
    (cloneStep h k pl ckids).1.nodes.length = h.nodes.length + 1 ∧
    (cloneStep h k pl ckids).1.arrays = h.arrays ++ [ckids] ∧
    (∀ i, i < h.nodes.length → i ∉ ckids →
      (cloneStep h k pl ckids).1.nodes.get? i = h.nodes.get? i) ∧
    (∀ i r, i ∈ ckids → h.nodes.get? i = some r →
      (cloneStep h k pl ckids).1.nodes.get? i =
        some { r with parent := some h.nodes.length }) ∧
    (cloneStep h k pl ckids).1.nodes.get? h.nodes.length =
      some ⟨k, pl, none, h.arrays.length⟩ := by
  obtain ⟨f1, f2, f3, f4⟩ := foldl_setParent_spec (some h.nodes.length) ckids
    ⟨h.nodes ++ [⟨k, pl, none, h.arrays.length⟩], h.arrays ++ [ckids]⟩
  unfold cloneStep Heap.allocArray Heap.allocNode
  simp only []
  refine ⟨trivial, ?_, ?_, ?_, ?_, ?_⟩
  · rw [f1]; simp
  · rw [f2]
  · intro i hi hmem
    rw [f3 i hmem]
    exact List.get?_append hi
  · intro i r hmem hget
    refine f4 i r hmem ?_
    show (h.nodes ++ [(⟨k, pl, none, h.arrays.length⟩ : NodeRec)]).get? i = some r
    rw [List.get?_append (hck i hmem)]
    exact hget
  · have hnm : h.nodes.length ∉ ckids := fun hmem => absurd (hck _ hmem) (by omega)
    rw [f3 _ hnm]
    show (h.nodes ++ [(⟨k, pl, none, h.arrays.length⟩ : NodeRec)]).get? h.nodes.length = _
    exact List.get?_concat_length _ _

theorem cloneInv_nil (h : Heap) : CloneInv h (h, []) :=
  ⟨ext_refl h, fun c hc => absurd hc (List.not_mem_nil c), freshOk_self h⟩

/-- Composition of the clone invariant across one `cloneStep` and the
recursive processing of the remaining nodes. -/
theorem cloneInv_step (h ha : Heap) (k : NKind) (pl : String) (ckids : List Nat)
    (F : Heap × List Nat)
    (hk : CloneInv h (ha, ckids))
    (hr : CloneInv (cloneStep ha k pl ckids).1 F) :
    CloneInv h (F.1, (cloneStep ha k pl ckids).2 :: F.2) := by
  obtain ⟨⟨e1, e2, e3, e4⟩, bk, g1, g2⟩ := hk
  have hck : ∀ c ∈ ckids, c < ha.nodes.length := fun c hc => (bk c hc).2
  obtain ⟨s1, s2, s3, s4, s5, s6⟩ := cloneStep_spec ha k pl ckids hck
  obtain ⟨⟨r1, r2, r3, r4⟩, br, q1, q2⟩ := hr
  dsimp only at e1 e2 e3 e4 bk g1 g2 r1 r2 r3 r4 br q1 q2 ⊢
  have hS_alen : (cloneStep ha k pl ckids).1.arrays.length = ha.arrays.length + 1 := by
    rw [s3]; simp
  unfold CloneInv
  dsimp only
  refine ⟨⟨?_, ?_, ?_, ?_⟩, ?_, ?_, ?_⟩
  · omega
  · omega
  · intro i hi
    have hi1 : i < ha.nodes.length := lt_of_lt_of_le hi e1
    have hiS : i < (cloneStep ha k pl ckids).1.nodes.length := by omega
    have hnm : i ∉ ckids := fun hm => absurd (bk i hm).1 (by omega)
    rw [r3 i hiS, s4 i hi1 hnm, e3 i hi]
  · intro kk hk2
    have hk1 : kk < ha.arrays.length := lt_of_lt_of_le hk2 e2
    have hkS : kk < (cloneStep ha k pl ckids).1.arrays.length := by omega
    rw [r4 kk hkS, s3, List.get?_append hk1, e4 kk hk2]
  · intro c hc
    rcases List.mem_cons.mp hc with he | hm
    · subst he
      rw [s1]
      constructor
      · omega
      · omega
    · obtain ⟨hb1, hb2⟩ := br c hm
      constructor
      · omega
      · exact hb2
  · intro j r hj hget
    by_cases hjS : j < (cloneStep ha k pl ckids).1.nodes.length
    · have hS : (cloneStep ha k pl ckids).1.nodes.get? j = some r := by
        rw [← r3 j hjS]; exact hget
      by_cases hjha : j < ha.nodes.length
      · by_cases hmem : j ∈ ckids
        · obtain ⟨r0, hr0⟩ : ∃ r0, ha.nodes.get? j = some r0 := by
            cases hh : ha.nodes.get? j with
            | none => exact absurd (List.get?_eq_none.mp hh) (by omega)
            | some r0 => exact ⟨r0, rfl⟩
          have h5 := s5 j r0 hmem hr0
          rw [hS] at h5
          have hrr : r = { r0 with parent := some ha.nodes.length } :=
            (Option.some.inj h5)
          have := g1 j r0 hj hr0
          rw [hrr]
          exact this
        · have h4 : ha.nodes.get? j = some r := by
            rw [← s4 j hjha hmem]; exact hS
          exact g1 j r hj h4
      · have hj2 : j = ha.nodes.length := by omega
        subst hj2
        rw [s6] at hS
        have hrr : r = ⟨k, pl, none, ha.arrays.length⟩ := (Option.some.inj hS).symm
        rw [hrr]
        exact e2
    · have hq := q1 j r (by omega) hget
      omega
  · intro kk l hkk hget c hc
    by_cases hkS : kk < (cloneStep ha k pl ckids).1.arrays.length
    · have hS : (cloneStep ha k pl ckids).1.arrays.get? kk = some l := by
        rw [← r4 kk hkS]; exact hget
      rw [s3] at hS
      by_cases hkha : kk < ha.arrays.length
      · rw [List.get?_append hkha] at hS
        exact g2 kk l hkk hS c hc
      · have hk2 : kk = ha.arrays.length := by
          rw [hS_alen] at hkS; omega
        subst hk2
        rw [List.get?_concat_length] at hS
        have hl : l = ckids := (Option.some.inj hS).symm
        subst hl
        exact (bk c hc).1
    · have hq := q2 kk l (by omega) hget c hc
      omega

/-- `TopCorr` can be rebased to a smaller heap whose cells read the same. -/
theorem forall₂_topCorr_mono (hres h1 h2 : Heap)
    (hbr : ∀ i, i < h2.nodes.length → h1.nodes.get? i = h2.nodes.get? i) :
    ∀ (cs is : List Nat), List.Forall₂ (TopCorr hres h1) cs is →
      (∀ i ∈ is, i < h2.nodes.length) → List.Forall₂ (TopCorr hres h2) cs is := by
  intro cs is hf
  induction hf with
  | nil => intro _; exact List.Forall₂.nil
  | @cons a b l1 l2 hab htail ih =>
    intro hmem
    refine List.Forall₂.cons ?_ (ih (fun i hi => hmem i (List.mem_cons_of_mem b hi)))
    obtain ⟨rc, rs, hh1, hh2, hh3, hh4⟩ := hab
    refine ⟨rc, rs, hh1, ?_, hh3, hh4⟩
    rw [← hbr b (hmem b (List.mem_cons_self b l2))]
    exact hh2

/-- One cons step of the main cloning invariant: given the invariant for the
already-cloned children and for the processing of the remaining nodes from
the stepped heap, conclude it for the whole cons. -/
theorem cloneCons_aux (h ha : Heap) (id : Nat) (rest : List Nat) (ckids : List Nat)
    (F : Heap × List Nat)
    (hk : CloneInv h (ha, ckids))
    (hF1 : CloneInv (cloneStep ha (srcOf h id).kind (srcOf h id).payload ckids).1 F)
    (hF2 : F.2.length = rest.length)
    (hF3 : (∀ i ∈ rest,
        i < (cloneStep ha (srcOf h id).kind (srcOf h id).payload ckids).1.nodes.length) →
      List.Forall₂ (TopCorr F.1 (cloneStep ha (srcOf h id).kind (srcOf h id).payload ckids).1)
        F.2 rest) :
    CloneInv h (F.1, (cloneStep ha (srcOf h id).kind (srcOf h id).payload ckids).2 :: F.2) ∧
    ((cloneStep ha (srcOf h id).kind (srcOf h id).payload ckids).2 :: F.2).length
      = (id :: rest).length ∧
    ((∀ i ∈ id :: rest, i < h.nodes.length) →
      List.Forall₂ (TopCorr F.1 h)
        ((cloneStep ha (srcOf h id).kind (srcOf h id).payload ckids).2 :: F.2) (id :: rest)) := by
  have hstep := cloneInv_step h ha (srcOf h id).kind (srcOf h id).payload ckids F hk hF1
  refine ⟨hstep, by simp [hF2], ?_⟩
  intro hall
  obtain ⟨⟨e1, e2, e3, e4⟩, bk, g1, g2⟩ := hk
  dsimp only at e1 e2 e3 e4 bk g1 g2
  have hck : ∀ c ∈ ckids, c < ha.nodes.length := fun c hc => (bk c hc).2
  obtain ⟨s1, s2, s3, s4, s5, s6⟩ :=
    cloneStep_spec ha (srcOf h id).kind (srcOf h id).payload ckids hck
  obtain ⟨⟨r1, r2, r3, r4⟩, br, q1, q2⟩ := hF1
  have hbridge : ∀ i, i < h.nodes.length →
      (cloneStep ha (srcOf h id).kind (srcOf h id).payload ckids).1.nodes.get? i
        = h.nodes.get? i := by
    intro i hi
    have hi1 : i < ha.nodes.length := lt_of_lt_of_le hi e1
    have hnm : i ∉ ckids := fun hm => absurd (bk i hm).1 (by omega)
    rw [s4 i hi1 hnm, e3 i hi]
  refine List.Forall₂.cons ?_ ?_
  · have hid : id < h.nodes.length := hall id (List.mem_cons_self id rest)
    obtain ⟨rs, hrs⟩ : ∃ rs, h.nodes.get? id = some rs := by
      cases hh : h.nodes.get? id with
      | none => exact absurd (List.get?_eq_none.mp hh) (by omega)
      | some rs => exact ⟨rs, rfl⟩
    have hsrc : srcOf h id = rs := by
      unfold srcOf
      rw [List.getD_eq_get?, hrs]
      rfl
    have hrec : F.1.nodes.get?
        (cloneStep ha (srcOf h id).kind (srcOf h id).payload ckids).2 =
        some ⟨(srcOf h id).kind, (srcOf h id).payload, none, ha.arrays.length⟩ := by
      rw [s1, r3 _ (by omega)]
      exact s6
    exact ⟨_, rs, hrec, hrs,
      show (srcOf h id).kind = rs.kind by rw [hsrc],
      show (srcOf h id).payload = rs.payload by rw [hsrc]⟩
  · have hall2 : ∀ i ∈ rest,
        i < (cloneStep ha (srcOf h id).kind (srcOf h id).payload ckids).1.nodes.length := by
      intro i hi
      have := hall i (List.mem_cons_of_mem id hi)
      omega
    have hallrest : ∀ i ∈ rest, i < h.nodes.length :=
      fun i hi => hall i (List.mem_cons_of_mem id hi)
    exact forall₂_topCorr_mono F.1 _ h hbridge F.2 rest (hF3 hall2) hallrest

/-- The main invariant of `cloneMany`, for every fuel, node list and heap:
the result heap extends the input heap unchanged below its sizes, the clone
ids are fresh and valid, the fresh part is separated, the output has the
input's length, and (for valid inputs) the i-th clone copies the i-th
source's kind and payload. -/
theorem cloneMany_main (fuel : Nat) : ∀ (ids : List Nat) (h : Heap),
    CloneInv h (cloneMany fuel h ids) ∧
    (cloneMany fuel h ids).2.length = ids.length ∧
    ((∀ i ∈ ids, i < h.nodes.length) →
      List.Forall₂ (TopCorr (cloneMany fuel h ids).1 h) (cloneMany fuel h ids).2 ids) := by
  induction fuel with
  | zero =>
    intro ids
    induction ids with
    | nil =>
      intro h
      have hnil : cloneMany 0 h [] = (h, []) := by rw [cloneMany]
      rw [hnil]
      exact ⟨cloneInv_nil h, rfl, fun _ => List.Forall₂.nil⟩
    | cons id rest ih =>
      intro h
      have heq : cloneMany 0 h (id :: rest) =
          ((cloneMany 0 (cloneStep h (srcOf h id).kind (srcOf h id).payload []).1 rest).1,
           (cloneStep h (srcOf h id).kind (srcOf h id).payload []).2 ::
             (cloneMany 0 (cloneStep h (srcOf h id).kind (srcOf h id).payload []).1 rest).2) := by
        rw [cloneMany]
      rw [heq]
      obtain ⟨i1, i2, i3⟩ := ih (cloneStep h (srcOf h id).kind (srcOf h id).payload []).1
      exact cloneCons_aux h h id rest [] _ (cloneInv_nil h) i1 i2 i3
  | succ f ihf =>
    intro ids
    induction ids with
    | nil =>
      intro h
      have hnil : cloneMany (f + 1) h [] = (h, []) := by rw [cloneMany]
      rw [hnil]
      exact ⟨cloneInv_nil h, rfl, fun _ => List.Forall₂.nil⟩
    | cons id rest ih =>
      intro h
      have heq : cloneMany (f + 1) h (id :: rest) =
          ((cloneMany (f + 1) (cloneStep (cloneMany f h (kidsOf h id)).1
              (srcOf h id).kind (srcOf h id).payload (cloneMany f h (kidsOf h id)).2).1 rest).1,
           (cloneStep (cloneMany f h (kidsOf h id)).1
              (srcOf h id).kind (srcOf h id).payload (cloneMany f h (kidsOf h id)).2).2 ::
             (cloneMany (f + 1) (cloneStep (cloneMany f h (kidsOf h id)).1
              (srcOf h id).kind (srcOf h id).payload (cloneMany f h (kidsOf h id)).2).1 rest).2) := by
        rw [cloneMany]
      rw [heq]
      obtain ⟨k1, _, _⟩ := ihf (kidsOf h id) h
      obtain ⟨i1, i2, i3⟩ := ih (cloneStep (cloneMany f h (kidsOf h id)).1
        (srcOf h id).kind (srcOf h id).payload (cloneMany f h (kidsOf h id)).2).1
      exact cloneCons_aux h (cloneMany f h (kidsOf h id)).1 id rest
        (cloneMany f h (kidsOf h id)).2 _ k1 i1 i2 i3

/-- Unfolding of `cloneDom`: both dispatch branches are `cloneMany` on
`dom.toList`, followed by the array allocation, the root allocation and the
parent rewrite. -/
theorem cloneDom_eq (fuel : Nat) (h : Heap) (dom : CloneArg) :
    cloneDom fuel h dom =
      ((cloneMany fuel h dom.toList).2.foldl
          (fun hh c => hh.setParent c (some ((cloneMany fuel h dom.toList).1.nodes.length)))
          ⟨(cloneMany fuel h dom.toList).1.nodes ++
             [⟨NKind.document, "", none, (cloneMany fuel h dom.toList).1.arrays.length⟩],
           (cloneMany fuel h dom.toList).1.arrays ++ [(cloneMany fuel h dom.toList).2]⟩,
       (cloneMany fuel h dom.toList).1.arrays.length) := by
  unfold cloneDom CloneArg.toList
  cases dom.lengthVal <;> rfl

/-- Core read-back facts about the heap `cloneDom` produces, in terms of the
underlying `cloneMany` call on `dom.toList`. -/
theorem cloneDom_core (fuel : Nat) (h : Heap) (dom : CloneArg) :
    (cloneDom fuel h dom).2 = (cloneMany fuel h dom.toList).1.arrays.length ∧
    (cloneDom fuel h dom).1.nodes.length
      = (cloneMany fuel h dom.toList).1.nodes.length + 1 ∧
    (cloneDom fuel h dom).1.arrays
      = (cloneMany fuel h dom.toList).1.arrays ++ [(cloneMany fuel h dom.toList).2] ∧
    (cloneDom fuel h dom).1.arrays.get? (cloneDom fuel h dom).2
      = some (cloneMany fuel h dom.toList).2 ∧
    (cloneDom fuel h dom).1.nodes.get? (cloneMany fuel h dom.toList).1.nodes.length
      = some ⟨NKind.document, "", none, (cloneMany fuel h dom.toList).1.arrays.length⟩ ∧
    (∀ c r, c ∈ (cloneMany fuel h dom.toList).2 →
      (cloneMany fuel h dom.toList).1.nodes.get? c = some r →
      (cloneDom fuel h dom).1.nodes.get? c
        = some { r with parent := some (cloneMany fuel h dom.toList).1.nodes.length }) ∧
    (∀ i, i ∉ (cloneMany fuel h dom.toList).2 →
      i < (cloneMany fuel h dom.toList).1.nodes.length →
      (cloneDom fuel h dom).1.nodes.get? i
        = (cloneMany fuel h dom.toList).1.nodes.get? i) := by
  obtain ⟨⟨e1, e2, e3, e4⟩, bk, g1, g2⟩ := (cloneMany_main fuel dom.toList h).1
  obtain ⟨f1, f2, f3, f4⟩ := foldl_setParent_spec
    (some ((cloneMany fuel h dom.toList).1.nodes.length))
    (cloneMany fuel h dom.toList).2
    ⟨(cloneMany fuel h dom.toList).1.nodes ++
       [⟨NKind.document, "", none, (cloneMany fuel h dom.toList).1.arrays.length⟩],
     (cloneMany fuel h dom.toList).1.arrays ++ [(cloneMany fuel h dom.toList).2]⟩
  rw [cloneDom_eq fuel h dom]
  dsimp only
  dsimp only at f1 f2 f3 f4
  have hroot_nm : (cloneMany fuel h dom.toList).1.nodes.length
      ∉ (cloneMany fuel h dom.toList).2 :=
    fun hm => absurd (bk _ hm).2 (by omega)
  refine ⟨rfl, ?_, f2, ?_, ?_, ?_, ?_⟩
  · rw [f1]; simp
  · rw [f2]
    exact List.get?_concat_length _ _
  · rw [f3 _ hroot_nm]
    exact List.get?_concat_length _ _
  · intro c r hc hr
    refine f4 c r hc ?_
    show ((cloneMany fuel h dom.toList).1.nodes ++ [_]).get? c = some r
    rw [List.get?_append (bk c hc).2]
    exact hr
  · intro i hnm hi
    rw [f3 i hnm]
    show ((cloneMany fuel h dom.toList).1.nodes ++ [_]).get? i = _
    rw [List.get?_append hi]

/-- `TopCorr` survives moving to a result heap whose records keep kind and
payload cell-by-cell. -/
theorem forall₂_topCorr_imp (h1 h2 hbase : Heap)
    (hpres : ∀ c r, h1.nodes.get? c = some r →
      ∃ r2, h2.nodes.get? c = some r2 ∧ r2.kind = r.kind ∧ r2.payload = r.payload)
    {cs is : List Nat} (hf : List.Forall₂ (TopCorr h1 hbase) cs is) :
    List.Forall₂ (TopCorr h2 hbase) cs is := by
  refine hf.imp ?_
  intro a b hab
  obtain ⟨rc, rs, ha1, ha2, ha3, ha4⟩ := hab
  obtain ⟨r2, hr2, hk2, hp2⟩ := hpres a rc ha1
  exact ⟨r2, rs, hr2, ha2, hk2.trans ha3, hp2.trans ha4⟩

/-- C3: `cloneDom` never mutates the source: every node and array cell of
the input heap reads unchanged afterwards (`Ext`), every returned top-level
clone id is fresh, and the fresh part of the heap is separated — fresh nodes
reference only fresh array cells, which hold only fresh node ids
(`FreshOk`), so the clone graph and the source graph share no cell.
Consequently reparenting any fresh node leaves every source cell unchanged,
and overwriting any source cell leaves every fresh cell unchanged. -/
theorem cloneDom_frame (fuel : Nat) (h : Heap) (dom : CloneArg) :
    Ext h (cloneDom fuel h dom).1 ∧
    (∀ c ∈ (cloneDom fuel h dom).1.arrays.getD (cloneDom fuel h dom).2 [],
      h.nodes.length ≤ c) ∧
    FreshOk h.nodes.length h.arrays.length (cloneDom fuel h dom).1 ∧
    (∀ j p i, h.nodes.length ≤ j → i < h.nodes.length →
      ((cloneDom fuel h dom).1.setParent j p).nodes.get? i = h.nodes.get? i) ∧
    (∀ i r j, i < h.nodes.length → h.nodes.length ≤ j →
      ((cloneDom fuel h dom).1.setNode i r).nodes.get? j
        = (cloneDom fuel h dom).1.nodes.get? j) := by
  obtain ⟨⟨e1, e2, e3, e4⟩, bk, g1, g2⟩ := (cloneMany_main fuel dom.toList h).1
  obtain ⟨c1, c2, c3, c4, c5, c6, c7⟩ := cloneDom_core fuel h dom
  have hout_alen : (cloneDom fuel h dom).1.arrays.length
      = (cloneMany fuel h dom.toList).1.arrays.length + 1 := by rw [c3]; simp
  have hext : Ext h (cloneDom fuel h dom).1 := by
    refine ⟨by omega, by omega, ?_, ?_⟩
    · intro i hi
      have hi1 : i < (cloneMany fuel h dom.toList).1.nodes.length := by omega
      have hnm : i ∉ (cloneMany fuel h dom.toList).2 :=
        fun hm => absurd (bk i hm).1 (by omega)
      rw [c7 i hnm hi1, e3 i hi]
    · intro k hk
      rw [c3, List.get?_append (by omega), e4 k hk]
  obtain ⟨x1, x2, x3, x4⟩ := hext
  refine ⟨⟨x1, x2, x3, x4⟩, ?_, ⟨?_, ?_⟩, ?_, ?_⟩
  · intro c hc
    rw [List.getD_eq_get?, c4] at hc
    exact (bk c hc).1
  · intro j r hj hget
    by_cases hjM : j < (cloneMany fuel h dom.toList).1.nodes.length
    · by_cases hmem : j ∈ (cloneMany fuel h dom.toList).2
      · obtain ⟨r0, hr0⟩ : ∃ r0, (cloneMany fuel h dom.toList).1.nodes.get? j = some r0 := by
          cases hh : (cloneMany fuel h dom.toList).1.nodes.get? j with
          | none => exact absurd (List.get?_eq_none.mp hh) (by omega)
          | some r0 => exact ⟨r0, rfl⟩
        have h6 := c6 j r0 hmem hr0
        rw [hget] at h6
        have hrr : r = { r0 with
            parent := some (cloneMany fuel h dom.toList).1.nodes.length } :=
          Option.some.inj h6
        rw [hrr]
        exact g1 j r0 hj hr0
      · have h7 : (cloneMany fuel h dom.toList).1.nodes.get? j = some r := by
          rw [← c7 j hmem hjM]; exact hget
        exact g1 j r hj h7
    · by_cases hjR : j = (cloneMany fuel h dom.toList).1.nodes.length
      · subst hjR
        rw [c5] at hget
        have hrr : r = ⟨NKind.document, "",
            none, (cloneMany fuel h dom.toList).1.arrays.length⟩ :=
          (Option.some.inj hget).symm
        rw [hrr]
        exact e2
      · have := get?_some_lt hget
        omega
  · intro kk l hkk hget c hc
    rw [c3] at hget
    by_cases hkM : kk < (cloneMany fuel h dom.toList).1.arrays.length
    · rw [List.get?_append hkM] at hget
      exact g2 kk l hkk hget c hc
    · by_cases hkR : kk = (cloneMany fuel h dom.toList).1.arrays.length
      · subst hkR
        rw [List.get?_concat_length] at hget
        have hl : l = (cloneMany fuel h dom.toList).2 := (Option.some.inj hget).symm
        subst hl
        exact (bk c hc).1
      · have := get?_some_lt hget
        simp at this
        omega
  · intro j p i hj hi
    rw [Heap.setParent, List.get?_set_ne _ _ (by omega)]
    exact x3 i hi
  · intro i r j hi hj
    rw [Heap.setNode, List.get?_set_ne _ _ (by omega)]

/-- C2: the array `cloneDom` returns holds one clone for a single-node
input and `length` clones for an array-like input, in input order (the i-th
clone copies the i-th source's kind and payload); every top-level clone's
parent is the `Document` node freshly constructed during the call — in
particular it is non-null and, since every source parent reference is a
pre-existing node, distinct from any source node's parent. -/
theorem cloneDom_shape (fuel : Nat) (h : Heap) (dom : CloneArg)
    (hpar : parentsBounded h = true)
    (hids : ∀ i ∈ dom.toList, i < h.nodes.length) :
    ∃ cs rootId,
      (cloneDom fuel h dom).1.arrays.get? (cloneDom fuel h dom).2 = some cs ∧
      (dom.lengthVal = none → cs.length = 1) ∧
      (∀ n, dom.lengthVal = some n → cs.length = n) ∧
      List.Forall₂ (TopCorr (cloneDom fuel h dom).1 h) cs dom.toList ∧
      h.nodes.length ≤ rootId ∧
      (∃ rrec, (cloneDom fuel h dom).1.nodes.get? rootId = some rrec ∧
        rrec.kind = NKind.document) ∧
      (∀ c ∈ cs, ∃ rc, (cloneDom fuel h dom).1.nodes.get? c = some rc ∧
        rc.parent = some rootId) ∧
      (∀ i r p, h.nodes.get? i = some r → r.parent = some p → p ≠ rootId) := by
  obtain ⟨inv, hlen, hcorr⟩ := cloneMany_main fuel dom.toList h
  obtain ⟨⟨e1, e2, e3, e4⟩, bk, g1, g2⟩ := inv
  obtain ⟨c1, c2, c3, c4, c5, c6, c7⟩ := cloneDom_core fuel h dom
  refine ⟨(cloneMany fuel h dom.toList).2, (cloneMany fuel h dom.toList).1.nodes.length,
    c4, ?_, ?_, ?_, e1, ⟨_, c5, rfl⟩, ?_, ?_⟩
  · intro hnone
    have ht : dom.toList = [dom.self] := by unfold CloneArg.toList; rw [hnone]
    rw [hlen, ht]
    rfl
  · intro n hn
    have ht : dom.toList = (List.range n).map dom.items := by
      unfold CloneArg.toList; rw [hn]
    rw [hlen, ht]
    simp
  · refine forall₂_topCorr_imp (cloneMany fuel h dom.toList).1 (cloneDom fuel h dom).1 h
      ?_ (hcorr hids)
    intro c r hr
    by_cases hmem : c ∈ (cloneMany fuel h dom.toList).2
    · exact ⟨_, c6 c r hmem hr, rfl, rfl⟩
    · exact ⟨r, by rw [c7 c hmem (get?_some_lt hr)]; exact hr, rfl, rfl⟩
  · intro c hc
    obtain ⟨r0, hr0⟩ : ∃ r0, (cloneMany fuel h dom.toList).1.nodes.get? c = some r0 := by
      cases hh : (cloneMany fuel h dom.toList).1.nodes.get? c with
      | none => exact absurd (List.get?_eq_none.mp hh) (by have := (bk c hc).2; omega)
      | some r0 => exact ⟨r0, rfl⟩
    exact ⟨_, c6 c r0 hc hr0, rfl⟩
  · intro i r p hget hp
    have hrmem : r ∈ h.nodes := List.get?_mem hget
    have hall := List.all_eq_true.mp hpar r hrmem
    rw [hp] at hall
    simp at hall
    intro he
    omega

/-- C9: the array cell `cloneDom` returns is the very cell the fresh
`Document` holds as its children list: the root (the last node allocated
during the call, fresh by construction) stores the returned reference as its
`childrenRef`, so overwriting the returned array is overwriting the
document's children list. -/
theorem cloneDom_alias (fuel : Nat) (h : Heap) (dom : CloneArg) :
    h.nodes.length ≤ (cloneDom fuel h dom).1.nodes.length - 1 ∧
    (∃ rrec, (cloneDom fuel h dom).1.nodes.get?
        ((cloneDom fuel h dom).1.nodes.length - 1) = some rrec ∧
      rrec.kind = NKind.document ∧
      rrec.childrenRef = (cloneDom fuel h dom).2 ∧
      (∀ nl : List Nat,
        ((cloneDom fuel h dom).1.setArray (cloneDom fuel h dom).2 nl).arrays.get?
            rrec.childrenRef = some nl)) := by
  obtain ⟨⟨e1, e2, e3, e4⟩, bk, g1, g2⟩ := (cloneMany_main fuel dom.toList h).1
  obtain ⟨c1, c2, c3, c4, c5, c6, c7⟩ := cloneDom_core fuel h dom
  have hidx : (cloneDom fuel h dom).1.nodes.length - 1
      = (cloneMany fuel h dom.toList).1.nodes.length := by omega
  refine ⟨by omega, ⟨⟨NKind.document, "", none,
      (cloneMany fuel h dom.toList).1.arrays.length⟩,
    by rw [hidx]; exact c5, rfl, by rw [c1], ?_⟩⟩
  intro nl
  show ((cloneDom fuel h dom).1.arrays.set (cloneDom fuel h dom).2 nl).get?
      (cloneMany fuel h dom.toList).1.arrays.length = some nl
  rw [c1]
  exact List.get?_set_eq_of_lt nl (by rw [c3]; simp)

/-- C10: `cloneDom` dispatches solely on the presence of the `length` key:
any input exposing one is cloned by mapping over its indexed elements (the
single-node field is never read), and any input without one is cloned as a
single node into a one-element list (the indexed elements are never read). -/
theorem cloneDom_dispatch (fuel : Nat) (h : Heap) (n : Nat) (it : Nat → Nat) (s0 : Nat)
    (it2 : Nat → Nat) (s1 : Nat) :
    CloneArg.hasLengthKey ⟨some n, it, s0⟩ = true ∧
    CloneArg.hasLengthKey ⟨none, it2, s1⟩ = false ∧
    (cloneDom fuel h ⟨some n, it, s0⟩).1.arrays.get? (cloneDom fuel h ⟨some n, it, s0⟩).2
      = some (cloneMany fuel h ((List.range n).map it)).2 ∧
    (cloneMany fuel h ((List.range n).map it)).2.length = n ∧
    (cloneDom fuel h ⟨none, it2, s1⟩).1.arrays.get? (cloneDom fuel h ⟨none, it2, s1⟩).2
      = some (cloneMany fuel h [s1]).2 ∧
    (cloneMany fuel h [s1]).2.length = 1 := by
  refine ⟨rfl, rfl, ?_, ?_, ?_, ?_⟩
  · exact (cloneDom_core fuel h ⟨some n, it, s0⟩).2.2.2.1
  · have hl := (cloneMany_main fuel ((List.range n).map it) h).2.1
    rw [hl]; simp
  · exact (cloneDom_core fuel h ⟨none, it2, s1⟩).2.2.2.1
  · exact (cloneMany_main fuel [s1] h).2.1

/-- Witness for C2: the clone-shape theorem applied to a concrete one-node
heap and a single-node (no `length` key) argument, with both hypotheses
discharged by computation. -/
theorem cloneDom_shape_witness :
    parentsBounded (Heap.mk [⟨NKind.other, "x", none, 0⟩] [[]]) = true ∧
    (∀ i ∈ CloneArg.toList ⟨none, fun _ => 0, 0⟩,
      i < (Heap.mk [⟨NKind.other, "x", none, 0⟩] [[]]).nodes.length) ∧
    (∃ cs rootId,
      (cloneDom 1 (Heap.mk [⟨NKind.other, "x", none, 0⟩] [[]])
          ⟨none, fun _ => 0, 0⟩).1.arrays.get?
        (cloneDom 1 (Heap.mk [⟨NKind.other, "x", none, 0⟩] [[]])
          ⟨none, fun _ => 0, 0⟩).2 = some cs ∧
      ((⟨none, fun _ => 0, 0⟩ : CloneArg).lengthVal = none → cs.length = 1) ∧
      (∀ n, (⟨none, fun _ => 0, 0⟩ : CloneArg).lengthVal = some n → cs.length = n) ∧
      List.Forall₂ (TopCorr (cloneDom 1 (Heap.mk [⟨NKind.other, "x", none, 0⟩] [[]])
          ⟨none, fun _ => 0, 0⟩).1 (Heap.mk [⟨NKind.other, "x", none, 0⟩] [[]]))
        cs (CloneArg.toList ⟨none, fun _ => 0, 0⟩) ∧
      (Heap.mk [⟨NKind.other, "x", none, 0⟩] [[]]).nodes.length ≤ rootId ∧
      (∃ rrec, (cloneDom 1 (Heap.mk [⟨NKind.other, "x", none, 0⟩] [[]])
          ⟨none, fun _ => 0, 0⟩).1.nodes.get? rootId = some rrec ∧
        rrec.kind = NKind.document) ∧
      (∀ c ∈ cs, ∃ rc, (cloneDom 1 (Heap.mk [⟨NKind.other, "x", none, 0⟩] [[]])
          ⟨none, fun _ => 0, 0⟩).1.nodes.get? c = some rc ∧
        rc.parent = some rootId) ∧
      (∀ i r p, (Heap.mk [⟨NKind.other, "x", none, 0⟩] [[]]).nodes.get? i = some r →
        r.parent = some p → p ≠ rootId)) :=
  ⟨by decide, by decide,
   cloneDom_shape 1 (Heap.mk [⟨NKind.other, "x", none, 0⟩] [[]])
     ⟨none, fun _ => 0, 0⟩ (by decide) (by decide)⟩

end CheerioUtils
